import Mathlib

/-!
Verification of the core of `count_classifications.py`: the taxonomy-tree
model (parent map, raw- and standard-rank maps), the ancestor walk
(`get_all_ancestors`), lowest-common-ancestor computation (`find_lca`),
per-read classification (`add_rank_count`), and the main aggregation loop.

The Python dictionaries are embedded as functions `Nat → Option _`
(`none` = key absent, so a lookup of an absent key is an exception).
Python loops that may raise (`assert`, `KeyError`) are folds in the
`Option` monad, written as the explicit `foldOpt`.  The two unbounded
`while` loops that climb parent links carry an explicit fuel parameter;
running out of fuel yields `none`, so a `some` result certifies that the
walk actually terminated at the root exactly as the script's loop does.
-/

namespace CountClassifications

/-- One line of the taxonomy tree file: `(taxon_id, parent_id, rank)`
(columns 0, 2 and 4 of the file, rank lower-cased). -/
structure TaxRecord where
  taxId : Nat
  parentId : Nat
  rank : String
deriving DecidableEq

/-- One non-split line of the Centrifuge classification file:
`(read_name, seq_id, taxon_id)` (columns 0, 1, 2). -/
structure ClassRecord where
  readName : String
  seqId : String
  taxId : Nat
deriving DecidableEq

/-- `acceptable_ranks` from `load_tax_info`: the seven standard labels. -/
def acceptableRanks : List String :=
  ["domain", "phylum", "class", "order", "family", "genus", "species"]

/-- The closed 9-label set used by `write_summary` (`ranks`). -/
def nineRanks : List String :=
  ["unclassified", "root", "domain", "phylum", "class", "order", "family", "genus", "species"]

/-- Python dict update `m[k] = v`. -/
def updateFn {α : Type} (m : Nat → Option α) (k : Nat) (v : α) : Nat → Option α :=
  fun x => if x = k then some v else m x

/-- A Python `for` loop threading state whose body may raise an exception. -/
def foldOpt {α β : Type} (f : β → α → Option β) : β → List α → Option β
  | b, [] => some b
  | b, a :: l =>
    match f b a with
    | none => none
    | some b2 => foldOpt f b2 l

/-- `get_all_ancestors(tax_id, tax_id_to_parent)`: the list
`[tax_id, parent, grandparent, …, 1]`.  `none` models a `KeyError`
(missing parent entry) or a walk that fails to reach the root within
`fuel` steps (the script's loop would not terminate). -/
def ancestorsFuel (parent : Nat → Option Nat) : Nat → Nat → Option (List Nat)
  | 0, t => if t = 1 then some [1] else none
  | fuel + 1, t =>
    if t = 1 then some [1]
    else
      match parent t with
      | none => none
      | some p => (ancestorsFuel parent fuel p).map (fun l => t :: l)

/-- One iteration of the first loop of `find_lca`: intersect the running
common set with the ancestor set of the next tax ID (a fresh, empty
common set is replaced rather than intersected). -/
def lcaStep (parent : Nat → Option Nat) (fuel : Nat) (common : List Nat) (t : Nat) :
    Option (List Nat) :=
  match ancestorsFuel parent fuel t with
  | none => none
  | some ancs => some (if common.isEmpty then ancs else common.filter (fun x => ancs.contains x))

/-- `find_lca(tax_ids, tax_id_to_parent)`.  The input set is embedded as
the list of its elements in iteration order, so `next(iter(tax_ids))` is
the head.  `none` models the final `assert False` (no common ancestor
found), an empty input (`StopIteration`), or a failing ancestor walk. -/
def findLca (taxIds : List Nat) (parent : Nat → Option Nat) (fuel : Nat) : Option Nat :=
  match foldOpt (lcaStep parent fuel) [] taxIds with
  | none => none
  | some common =>
    match taxIds.head? with
    | none => none
    | some one =>
      match ancestorsFuel parent fuel one with
      | none => none
      | some ancs => ancs.find? (fun a => common.contains a)

/-- The value `add_rank_count` produces for one read: `empty` is the
bare `return` for a read with no candidate tax IDs, `classified` carries
the resolved tax ID and its raw and standard ranks. -/
inductive ClassifyOutcome where
  | empty : ClassifyOutcome
  | classified : Nat → String → String → ClassifyOutcome
deriving DecidableEq

/-- `add_rank_count` minus its two side effects (the detail-file row and
the per-rank counter bump, which `processRead` applies): resolve the
candidate set to a single tax ID — the sole member if there is exactly
one, otherwise the LCA after discarding 0 — and look up its ranks.
`none` models a `KeyError` in the rank maps or a failing LCA. -/
def addRankCount (taxIds : List Nat) (rankMap stdMap : Nat → Option String)
    (parent : Nat → Option Nat) (fuel : Nat) : Option ClassifyOutcome :=
  if taxIds.length = 0 then some ClassifyOutcome.empty
  else
    match (if taxIds.length = 1 then taxIds.head?
           else findLca (taxIds.filter (fun i => i != 0)) parent fuel) with
    | none => none
    | some taxId =>
      match rankMap taxId, stdMap taxId with
      | some rank, some std => some (ClassifyOutcome.classified taxId rank std)
      | _, _ => none

/-- `count_per_rank[s] += 1` on a defaultdict(int). -/
def bumpS (f : String → Nat) (s : String) : String → Nat :=
  fun x => if x = s then f x + 1 else f x

/-- `cumulative_counts_per_tax_id[t] += 1` on a defaultdict(int). -/
def bumpN (f : Nat → Nat) (t : Nat) : Nat → Nat :=
  fun x => if x = t then f x + 1 else f x

/-- The `while True` loop in `main` that increments the cumulative count
at every node from `t` up to the root (breaking once the root has been
counted).  `none` models a `KeyError` or a non-terminating climb. -/
def cumulAddFuel (parent : Nat → Option Nat) : Nat → (Nat → Nat) → Nat → Option (Nat → Nat)
  | 0, cum, t => if t = 1 then some (bumpN cum t) else none
  | fuel + 1, cum, t =>
    if t = 1 then some (bumpN cum t)
    else
      match parent t with
      | none => none
      | some p => cumulAddFuel parent fuel (bumpN cum t) p

/-- The body of `main`'s per-read loop: classify the read (applying the
per-rank counter bump that `add_rank_count` performs), and if the
resolved tax ID is positive, accumulate its ancestor chain.  A read with
no candidates makes `add_rank_count` return `None`, and `None > 0`
raises a `TypeError` in the script, hence `none`. -/
def processRead (rankMap stdMap : Nat → Option String) (parent : Nat → Option Nat) (fuel : Nat)
    (st : (String → Nat) × (Nat → Nat)) (read : String × List Nat) :
    Option ((String → Nat) × (Nat → Nat)) :=
  match addRankCount read.2 rankMap stdMap parent fuel with
  | none => none
  | some ClassifyOutcome.empty => none
  | some (ClassifyOutcome.classified t _ s) =>
    let cpr := bumpS st.1 s
    if 0 < t then
      match cumulAddFuel parent fuel st.2 t with
      | none => none
      | some cum => some (cpr, cum)
    else some (cpr, st.2)

/-- `main`'s loop over `tax_ids_per_read.items()`, starting from the two
fresh `defaultdict(int)` tables; returns `(count_per_rank,
cumulative_counts_per_tax_id)`. -/
def processReads (reads : List (String × List Nat)) (rankMap stdMap : Nat → Option String)
    (parent : Nat → Option Nat) (fuel : Nat) : Option ((String → Nat) × (Nat → Nat)) :=
  foldOpt (processRead rankMap stdMap parent fuel) (fun _ => 0, fun _ => 0) reads

/-- The `total_count` accumulated by `write_summary`'s loop over the
nine ranks (compared by `assert read_count == total_count`). -/
def summaryTotalCount (cpr : String → Nat) : Nat :=
  (nineRanks.map cpr).sum

/-- `tax_id_to_parent`: built from all records, later entries winning. -/
def buildParent (records : List TaxRecord) : Nat → Option Nat :=
  records.foldl (fun m r => updateFn m r.taxId r.parentId) (fun _ => none)

/-- The pre-seeded rank maps `{0: 'unclassified'}`. -/
def initRankMaps : (Nat → Option String) × (Nat → Option String) :=
  (fun x => if x = 0 then some "unclassified" else none,
   fun x => if x = 0 then some "unclassified" else none)

/-- One iteration of the first pass of `load_tax_info`: record the raw
rank; if it is acceptable record it as the standard rank too; the root
special case (`elif tax_id == 1`) asserts that the root is its own
parent and forces both ranks to `"root"`. -/
def firstPassStep (maps : (Nat → Option String) × (Nat → Option String)) (r : TaxRecord) :
    Option ((Nat → Option String) × (Nat → Option String)) :=
  let rk := updateFn maps.1 r.taxId r.rank
  if acceptableRanks.contains r.rank then
    some (rk, updateFn maps.2 r.taxId r.rank)
  else if r.taxId = 1 then
    if r.parentId = 1 then some (updateFn rk 1 "root", updateFn maps.2 1 "root")
    else none
  else some (rk, maps.2)

/-- The first pass of `load_tax_info` over the whole record list. -/
def firstPassMaps (records : List TaxRecord) :
    Option ((Nat → Option String) × (Nat → Option String)) :=
  foldOpt firstPassStep initRankMaps records

/-- One iteration of the second pass of `load_tax_info`: a tax ID
without a standard rank yet adopts the rank of the first ancestor on its
chain that has one; `none` models the two asserts (an acceptable rank
that was somehow skipped, and no ancestor carrying a standard rank) and
a failing ancestor walk. -/
def secondPassStep (parent : Nat → Option Nat) (fuel : Nat) (std : Nat → Option String)
    (r : TaxRecord) : Option (Nat → Option String) :=
  if (std r.taxId).isSome then some std
  else if acceptableRanks.contains r.rank then none
  else
    match ancestorsFuel parent fuel r.taxId with
    | none => none
    | some ancs =>
      match ancs.findSome? std with
      | none => none
      | some s => some (updateFn std r.taxId s)

/-- `load_tax_info` on the already-split record list: returns
`(tax_id_to_parent, tax_id_to_rank, tax_id_to_standard_rank)`. -/
def loadTaxInfo (records : List TaxRecord) (fuel : Nat) :
    Option ((Nat → Option Nat) × (Nat → Option String) × (Nat → Option String)) :=
  match firstPassMaps records with
  | none => none
  | some (rk, std1) =>
    match foldOpt (secondPassStep (buildParent records) fuel) std1 records with
    | none => none
    | some st => some (buildParent records, rk, st)

/-- `tax_ids_per_read[read_name].add(t)`, creating the entry if needed;
the ordered dict is an association list in insertion order, each value a
duplicate-free list in insertion order. -/
def insertTaxId (m : List (String × List Nat)) (name : String) (t : Nat) :
    List (String × List Nat) :=
  if m.any (fun p => p.1 = name) then
    m.map (fun p => if p.1 = name then (p.1, if p.2.contains t then p.2 else p.2 ++ [t]) else p)
  else m ++ [(name, [t])]

/-- One line of `load_tax_ids_per_read`: skip the header, map the
`'no rank'` sentinel to tax ID 1 before anything else, and reject
(`assert`) a tax ID of 0 whose seq ID is not `'unclassified'`. -/
def loadStep (m : List (String × List Nat)) (r : ClassRecord) :
    Option (List (String × List Nat)) :=
  if r.readName = "readID" then some m
  else
    let t := if r.seqId = "no rank" then 1 else r.taxId
    if t = 0 then
      if r.seqId = "unclassified" then some (insertTaxId m r.readName t)
      else none
    else some (insertTaxId m r.readName t)

/-- `load_tax_ids_per_read` on the already-split line list. -/
def loadTaxIdsPerRead (records : List ClassRecord) : Option (List (String × List Nat)) :=
  foldOpt loadStep [] records

/-- Whether `main`'s test `tax_id > 0` succeeds for a read with the
given candidate list (false also when classification fails). -/
def classifiedPositive (taxIds : List Nat) (rankMap stdMap : Nat → Option String)
    (parent : Nat → Option Nat) (fuel : Nat) : Bool :=
  match addRankCount taxIds rankMap stdMap parent fuel with
  | some (ClassifyOutcome.classified t _ _) => decide (0 < t)
  | _ => false

/-- The spec's worked scenario tree: root 1; genus 2 under it; species 3
and 4 under the genus. -/
def exampleRecords : List TaxRecord :=
  [⟨1, 1, "root"⟩, ⟨2, 1, "genus"⟩, ⟨3, 2, "species"⟩, ⟨4, 2, "species"⟩]

/-- The parent map of the scenario tree, written directly. -/
def exampleParentF : Nat → Option Nat :=
  fun t =>
    if t = 1 then some 1
    else if t = 2 then some 1
    else if t = 3 then some 2
    else if t = 4 then some 2
    else none

/-- The raw-rank map of the scenario tree, written directly. -/
def exampleRankF : Nat → Option String :=
  fun t =>
    if t = 0 then some "unclassified"
    else if t = 1 then some "root"
    else if t = 2 then some "genus"
    else if t = 3 then some "species"
    else if t = 4 then some "species"
    else none

/-- The standard-rank map of the scenario tree (every raw rank is
already standard here, so it coincides with the raw map). -/
def exampleStdF : Nat → Option String :=
  fun t =>
    if t = 0 then some "unclassified"
    else if t = 1 then some "root"
    else if t = 2 then some "genus"
    else if t = 3 then some "species"
    else if t = 4 then some "species"
    else none

/-- The spec's worked reads: `r1` with candidates `{3, 4}`, `r2`
unclassified with sole candidate `{0}`. -/
def exampleReads : List (String × List Nat) :=
  [("r1", [3, 4]), ("r2", [0])]

/-- Relation between the evolving second-pass map `m` of
`load_tax_info` and the pass-one standard-rank map `std1`: `m` extends
`std1`, and every entry of `m` either is a pass-one entry or was
inherited from the first ancestor on the node's chain that owns a
pass-one standard rank. -/
def Pass2Inv (parent : Nat → Option Nat) (fuel : Nat) (std1 m : Nat → Option String) : Prop :=
  (∀ k s, std1 k = some s → m k = some s) ∧
  ∀ k s, m k = some s → std1 k = some s ∨
    (std1 k = none ∧ ∃ l, ancestorsFuel parent fuel k = some l ∧ l.findSome? std1 = some s)

/-! ### Lemmas about the ancestor walk -/

theorem ancestorsFuel_root (parent : Nat → Option Nat) (f : Nat) :
    ancestorsFuel parent f 1 = some [1] := by
  cases f <;> simp [ancestorsFuel]

theorem ancestorsFuel_mono {parent : Nat → Option Nat} {f g t : Nat} {l : List Nat}
    (h : ancestorsFuel parent f t = some l) (hfg : f ≤ g) :
    ancestorsFuel parent g t = some l := by
  induction f generalizing g t l with
  | zero =>
    simp only [ancestorsFuel] at h
    split at h
    · rename_i ht
      subst ht
      rw [ancestorsFuel_root parent g]
      exact h.symm ▸ rfl
    · exact absurd h (by simp)
  | succ f ih =>
    simp only [ancestorsFuel] at h
    split at h
    · rename_i ht
      subst ht
      rw [ancestorsFuel_root parent g]
      exact h.symm ▸ rfl
    · rename_i ht
      rcases hp : parent t with _ | p
      · rw [hp] at h; exact absurd h (by simp)
      · rw [hp] at h
        rcases Option.map_eq_some'.mp h with ⟨l2, h2, rfl⟩
        rcases g with _ | g
        · omega
        · have hg : f ≤ g := Nat.le_of_succ_le_succ hfg
          simp only [ancestorsFuel, if_neg ht, hp]
          rw [ih h2 hg]
          rfl

theorem ancestorsFuel_head {parent : Nat → Option Nat} {f t : Nat} {l : List Nat}
    (h : ancestorsFuel parent f t = some l) : l.head? = some t := by
  cases f with
  | zero =>
    simp only [ancestorsFuel] at h
    split at h
    · rename_i ht
      subst ht
      have hl : l = [1] := (Option.some_inj.mp h).symm
      subst hl
      rfl
    · exact absurd h (by simp)
  | succ f =>
    simp only [ancestorsFuel] at h
    split at h
    · rename_i ht
      subst ht
      have hl : l = [1] := (Option.some_inj.mp h).symm
      subst hl
      rfl
    · rcases hp : parent t with _ | p
      · rw [hp] at h; exact absurd h (by simp)
      · rw [hp] at h
        rcases Option.map_eq_some'.mp h with ⟨l2, _, rfl⟩
        rfl

theorem ancestorsFuel_ne_nil {parent : Nat → Option Nat} {f t : Nat} {l : List Nat}
    (h : ancestorsFuel parent f t = some l) : l ≠ [] := by
  intro hnil
  subst hnil
  simpa using ancestorsFuel_head h

theorem ancestorsFuel_root_mem {parent : Nat → Option Nat} {f t : Nat} {l : List Nat}
    (h : ancestorsFuel parent f t = some l) : 1 ∈ l := by
  induction f generalizing t l with
  | zero =>
    simp only [ancestorsFuel] at h
    split at h
    · simp [← Option.some_inj.mp h]
    · exact absurd h (by simp)
  | succ f ih =>
    simp only [ancestorsFuel] at h
    split at h
    · simp [← Option.some_inj.mp h]
    · rcases hp : parent t with _ | p
      · rw [hp] at h; exact absurd h (by simp)
      · rw [hp] at h
        rcases Option.map_eq_some'.mp h with ⟨l2, h2, rfl⟩
        exact List.mem_cons_of_mem _ (ih h2)

theorem ancestorsFuel_getLast {parent : Nat → Option Nat} {f t : Nat} {l : List Nat}
    (h : ancestorsFuel parent f t = some l) : l.getLast? = some 1 := by
  induction f generalizing t l with
  | zero =>
    simp only [ancestorsFuel] at h
    split at h
    · simp [← Option.some_inj.mp h]
    · exact absurd h (by simp)
  | succ f ih =>
    simp only [ancestorsFuel] at h
    split at h
    · simp [← Option.some_inj.mp h]
    · rcases hp : parent t with _ | p
      · rw [hp] at h; exact absurd h (by simp)
      · rw [hp] at h
        rcases Option.map_eq_some'.mp h with ⟨l2, h2, rfl⟩
        have hlast := ih h2
        rcases l2 with _ | ⟨x, l2⟩
        · simp at hlast
        · rw [List.getLast?_cons_cons]
          exact hlast

theorem ancestorsFuel_drop {parent : Nat → Option Nat} {f t : Nat} {l : List Nat}
    (h : ancestorsFuel parent f t = some l) :
    ∀ i (hi : i < l.length), ancestorsFuel parent f (l.get ⟨i, hi⟩) = some (l.drop i) := by
  induction f generalizing t l with
  | zero =>
    simp only [ancestorsFuel] at h
    split at h
    · rename_i ht
      subst ht
      have hl : l = [1] := Option.some_inj.mp h.symm
      subst hl
      intro i hi
      have h0 : i = 0 := by simpa using hi
      subst h0
      simpa using ancestorsFuel_root parent 0
    · exact absurd h (by simp)
  | succ f ih =>
    simp only [ancestorsFuel] at h
    split at h
    · rename_i ht
      subst ht
      have hl : l = [1] := Option.some_inj.mp h.symm
      subst hl
      intro i hi
      have h0 : i = 0 := by simpa using hi
      subst h0
      simpa using ancestorsFuel_root parent (f + 1)
    · rename_i ht
      rcases hp : parent t with _ | p
      · rw [hp] at h; exact absurd h (by simp)
      · rw [hp] at h
        rcases Option.map_eq_some'.mp h with ⟨l2, h2, rfl⟩
        intro i hi
        rcases i with _ | i
        · simpa [ancestorsFuel, if_neg ht, hp] using congrArg (Option.map (fun l => t :: l)) h2
        · have hi2 : i < l2.length := by simpa using hi
          have := ih h2 i hi2
          simpa using ancestorsFuel_mono this (Nat.le_succ f)

theorem ancestorsFuel_det {parent : Nat → Option Nat} {f g t : Nat} {l l2 : List Nat}
    (h : ancestorsFuel parent f t = some l) (h2 : ancestorsFuel parent g t = some l2) :
    l2 = l := by
  rcases Nat.le_total f g with hfg | hgf
  · have := ancestorsFuel_mono h hfg
    rw [this] at h2
    exact (Option.some_inj.mp h2).symm
  · have := ancestorsFuel_mono h2 hgf
    rw [this] at h
    exact Option.some_inj.mp h

theorem ancestorsFuel_parent_step {parent : Nat → Option Nat} {f t : Nat} {l : List Nat}
    (h : ancestorsFuel parent f t = some l) :
    ∀ i (hi : i + 1 < l.length),
      parent (l.get ⟨i, Nat.lt_of_succ_lt hi⟩) = some (l.get ⟨i + 1, hi⟩) := by
  induction f generalizing t l with
  | zero =>
    simp only [ancestorsFuel] at h
    split at h
    · have hl : l = [1] := Option.some_inj.mp h.symm
      subst hl
      intro i hi
      exact absurd hi (by simp)
    · exact absurd h (by simp)
  | succ f ih =>
    simp only [ancestorsFuel] at h
    split at h
    · have hl : l = [1] := Option.some_inj.mp h.symm
      subst hl
      intro i hi
      exact absurd hi (by simp)
    · rcases hp : parent t with _ | p
      · rw [hp] at h; exact absurd h (by simp)
      · rw [hp] at h
        rcases Option.map_eq_some'.mp h with ⟨l2, h2, rfl⟩
        intro i hi
        rcases i with _ | i
        · have hh := ancestorsFuel_head h2
          rcases l2 with _ | ⟨x, l2⟩
          · simp at hh
          · rw [List.head?_cons] at hh
            have hx : x = p := Option.some_inj.mp hh
            subst hx
            simpa using hp
        · have hi2 : i + 1 < l2.length := by simpa using hi
          simpa using ih h2 i hi2

theorem ancestorsFuel_length_two {parent : Nat → Option Nat} {f t : Nat} {l : List Nat}
    (h : ancestorsFuel parent f t = some l) (ht : t ≠ 1) : 2 ≤ l.length := by
  cases f with
  | zero =>
    simp only [ancestorsFuel, if_neg ht] at h
    exact absurd h (by simp)
  | succ f =>
    simp only [ancestorsFuel, if_neg ht] at h
    rcases hp : parent t with _ | p
    · rw [hp] at h; exact absurd h (by simp)
    · rw [hp] at h
      rcases Option.map_eq_some'.mp h with ⟨l2, h2, rfl⟩
      have := ancestorsFuel_ne_nil h2
      rcases l2 with _ | ⟨x, l2⟩
      · exact absurd rfl this
      · simp

theorem ancestorsFuel_self_mem {parent : Nat → Option Nat} {f t : Nat} {l : List Nat}
    (h : ancestorsFuel parent f t = some l) : t ∈ l := by
  have hh := ancestorsFuel_head h
  rcases l with _ | ⟨x, l⟩
  · simp at hh
  · rw [List.head?_cons] at hh
    rw [← Option.some_inj.mp hh]
    exact List.mem_cons_self _ _

/-! ### Generic helpers about `foldOpt` and `find?` -/

theorem foldOpt_nil {α β : Type} (f : β → α → Option β) (b : β) :
    foldOpt f b [] = some b := rfl

theorem foldOpt_cons {α β : Type} (f : β → α → Option β) (b : β) (a : α) (l : List α) :
    foldOpt f b (a :: l) =
      match f b a with
      | none => none
      | some b2 => foldOpt f b2 l := rfl

/-- `find?` returns the element at the least index satisfying the predicate. -/
theorem find?_least_index {α : Type} (p : α → Bool) :
    ∀ (l : List α) (a : α), l.find? p = some a →
      ∃ i, ∃ (hi : i < l.length), l.get ⟨i, hi⟩ = a ∧ p a = true ∧
        ∀ j (hj : j < l.length), p (l.get ⟨j, hj⟩) = true → i ≤ j := by
  intro l
  induction l with
  | nil => intro a h; simp at h
  | cons x l ih =>
    intro a h
    rcases hpx : p x with _ | _
    · rw [List.find?_cons_of_neg _ (by simp [hpx])] at h
      obtain ⟨i, hi, hget, hpa, hmin⟩ := ih a h
      refine ⟨i + 1, by simpa using hi, by simpa using hget, hpa, ?_⟩
      intro j hj hpj
      rcases j with _ | j
      · exact absurd hpj (by simp [hpx])
      · have := hmin j (by simpa using hj) (by simpa using hpj)
        omega
    · rw [List.find?_cons_of_pos _ hpx] at h
      have hax : a = x := (Option.some_inj.mp h).symm
      subst hax
      exact ⟨0, by simp, rfl, hpx, fun j hj _ => Nat.zero_le j⟩

/-! ### The intersection loop of `find_lca` -/

theorem lca_fold_inter (parent : Nat → Option Nat) (fuel : Nat) :
    ∀ (ts : List Nat) (common : List Nat), 1 ∈ common →
      (∀ t ∈ ts, ∃ l, ancestorsFuel parent fuel t = some l) →
      ∃ C, foldOpt (lcaStep parent fuel) common ts = some C ∧ 1 ∈ C ∧
        ∀ x, x ∈ C ↔ x ∈ common ∧
          ∀ t ∈ ts, ∀ l, ancestorsFuel parent fuel t = some l → x ∈ l := by
  intro ts
  induction ts with
  | nil =>
    intro common h1 _
    exact ⟨common, rfl, h1, by simp⟩
  | cons t ts ih =>
    intro common h1 hch
    obtain ⟨l, hl⟩ := hch t (by simp)
    have hne : common.isEmpty = false := by
      rcases common with _ | _
      · simp at h1
      · rfl
    have hstep : lcaStep parent fuel common t =
        some (common.filter (fun x => l.contains x)) := by
      simp [lcaStep, hl, hne]
    have h1' : 1 ∈ common.filter (fun x => l.contains x) := by
      rw [List.mem_filter]
      exact ⟨h1, List.elem_iff.mpr (ancestorsFuel_root_mem hl)⟩
    obtain ⟨C, hC, h1C, hmem⟩ := ih _ h1' (fun u hu => hch u (by simp [hu]))
    refine ⟨C, ?_, h1C, ?_⟩
    · rw [foldOpt_cons, hstep]
      exact hC
    · intro x
      rw [hmem x, List.mem_filter]
      constructor
      · rintro ⟨⟨hxc, hxl⟩, hrest⟩
        refine ⟨hxc, ?_⟩
        intro u hu l2 hl2
        rcases List.mem_cons.mp hu with rfl | hu
        · rw [ancestorsFuel_det hl hl2]
          exact List.elem_iff.mp hxl
        · exact hrest u hu l2 hl2
      · rintro ⟨hxc, hall⟩
        exact ⟨⟨hxc, List.elem_iff.mpr (hall t (by simp) l hl)⟩,
               fun u hu l2 hl2 => hall u (by simp [hu]) l2 hl2⟩

/-- The full behaviour of `find_lca` on a non-empty input all of whose
members have terminating ancestor walks: it succeeds, its result is a
common ancestor, and no common ancestor sits deeper (has a longer
chain). -/
theorem findLca_spec (parent : Nat → Option Nat) (fuel : Nat) (t0 : Nat) (ts : List Nat)
    (hch : ∀ t ∈ t0 :: ts, ∃ l, ancestorsFuel parent fuel t = some l) :
    ∃ a, findLca (t0 :: ts) parent fuel = some a ∧
      (∀ t ∈ t0 :: ts, ∀ l, ancestorsFuel parent fuel t = some l → a ∈ l) ∧
      ∀ c la lc, (∀ t ∈ t0 :: ts, ∀ l, ancestorsFuel parent fuel t = some l → c ∈ l) →
        ancestorsFuel parent fuel a = some la → ancestorsFuel parent fuel c = some lc →
        lc.length ≤ la.length := by
  obtain ⟨l0, hl0⟩ := hch t0 (by simp)
  have hstep : lcaStep parent fuel [] t0 = some l0 := by simp [lcaStep, hl0]
  obtain ⟨C, hC, h1C, hmem⟩ := lca_fold_inter parent fuel ts l0 (ancestorsFuel_root_mem hl0)
      (fun t ht => hch t (by simp [ht]))
  have hfind : (l0.find? (fun a => C.contains a)).isSome = true :=
    List.find?_isSome.mpr ⟨1, ancestorsFuel_root_mem hl0, List.elem_iff.mpr h1C⟩
  obtain ⟨a, ha⟩ := Option.isSome_iff_exists.mp hfind
  obtain ⟨i, hi, hgeti, hpa, hmin⟩ := find?_least_index _ l0 a ha
  have haC : a ∈ C := List.elem_iff.mp hpa
  have hamem : ∀ t ∈ t0 :: ts, ∀ l, ancestorsFuel parent fuel t = some l → a ∈ l := by
    intro t ht l hl
    rcases List.mem_cons.mp ht with rfl | ht
    · rw [ancestorsFuel_det hl0 hl]
      exact ((hmem a).mp haC).1
    · exact ((hmem a).mp haC).2 t ht l hl
  refine ⟨a, ?_, hamem, ?_⟩
  · have hfold : foldOpt (lcaStep parent fuel) [] (t0 :: ts) = some C := by
      rw [foldOpt_cons, hstep]
      exact hC
    simp only [findLca, hfold, List.head?_cons, hl0]
    exact ha
  · intro c la lc hcommon hla hlc
    have hcl0 : c ∈ l0 := hcommon t0 (by simp) l0 hl0
    have hcC : c ∈ C := (hmem c).mpr ⟨hcl0, fun t ht l hl => hcommon t (by simp [ht]) l hl⟩
    obtain ⟨⟨j, hj⟩, hgetj⟩ := List.mem_iff_get.mp hcl0
    have hij : i ≤ j := hmin j hj (by rw [hgetj]; exact List.elem_iff.mpr hcC)
    have hdropi := ancestorsFuel_drop hl0 i hi
    have hdropj := ancestorsFuel_drop hl0 j hj
    rw [hgeti] at hdropi
    rw [hgetj] at hdropj
    have hla2 : la = l0.drop i := ancestorsFuel_det hdropi hla
    have hlc2 : lc = l0.drop j := ancestorsFuel_det hdropj hlc
    rw [hla2, hlc2, List.length_drop, List.length_drop]
    omega

/-- If the LCA result lies on `a`'s own chain and is at least as deep as
`a`, it is `a` itself. -/
theorem lca_result_forces {parent : Nat → Option Nat} {fuel a r : Nat} {la : List Nat}
    (ha : ancestorsFuel parent fuel a = some la) (hr : r ∈ la)
    (hdeep : ∀ lr, ancestorsFuel parent fuel r = some lr → la.length ≤ lr.length) :
    r = a := by
  obtain ⟨⟨i, hi⟩, hget⟩ := List.mem_iff_get.mp hr
  have hdrop := ancestorsFuel_drop ha i hi
  rw [hget] at hdrop
  have hlen := hdeep _ hdrop
  rw [List.length_drop] at hlen
  have hi0 : i = 0 := by omega
  subst hi0
  have hh := ancestorsFuel_head ha
  rcases la with _ | ⟨x, la⟩
  · simp at hi
  · rw [List.head?_cons] at hh
    rw [← hget]
    simpa using Option.some_inj.mp hh

/-! ### Claims C1, C4, C9 -/

/-- C1: for every non-empty list of taxon IDs whose ancestor walks all
terminate (real nodes of a well-formed tree), `find_lca` returns a tax
ID that is an ancestor (inclusive) of every member, and no common
ancestor of all members has a strictly longer chain (i.e. sits strictly
deeper, farther from the root). -/
theorem count_C1 (taxIds : List Nat) (parent : Nat → Option Nat) (fuel : Nat)
    (hne : taxIds ≠ [])
    (hch : ∀ t ∈ taxIds, ∃ l, ancestorsFuel parent fuel t = some l) :
    ∃ a, findLca taxIds parent fuel = some a ∧
      (∀ t ∈ taxIds, ∀ l, ancestorsFuel parent fuel t = some l → a ∈ l) ∧
      ∀ c la lc, (∀ t ∈ taxIds, ∀ l, ancestorsFuel parent fuel t = some l → c ∈ l) →
        ancestorsFuel parent fuel a = some la → ancestorsFuel parent fuel c = some lc →
        lc.length ≤ la.length := by
  rcases taxIds with _ | ⟨t0, ts⟩
  · exact absurd rfl hne
  · exact findLca_spec parent fuel t0 ts hch

theorem count_C1_witness :
    ([3, 4] : List Nat) ≠ [] ∧
    ∃ a, findLca [3, 4] exampleParentF 9 = some a ∧
      (∀ t ∈ [3, 4], ∀ l, ancestorsFuel exampleParentF 9 t = some l → a ∈ l) ∧
      ∀ c la lc, (∀ t ∈ [3, 4], ∀ l, ancestorsFuel exampleParentF 9 t = some l → c ∈ l) →
        ancestorsFuel exampleParentF 9 a = some la →
        ancestorsFuel exampleParentF 9 c = some lc →
        lc.length ≤ la.length := by
  refine ⟨by decide, count_C1 [3, 4] exampleParentF 9 (by decide) ?_⟩
  intro t ht
  rcases List.mem_cons.mp ht with rfl | ht
  · exact ⟨[3, 2, 1], by decide⟩
  · rcases List.mem_cons.mp ht with rfl | ht
    · exact ⟨[4, 2, 1], by decide⟩
    · simp at ht

/-- C4: a successful ancestor walk yields a chain that starts with the
given tax ID, ends with the root 1, steps along parent links, has
length at least 2 off the root, and is independent of how it was
computed (repeated calls agree). -/
theorem count_C4 (parent : Nat → Option Nat) (fuel t : Nat) (l : List Nat)
    (H : ancestorsFuel parent fuel t = some l) :
    l.head? = some t ∧ l.getLast? = some 1 ∧
    (∀ i (hi : i + 1 < l.length),
      parent (l.get ⟨i, Nat.lt_of_succ_lt hi⟩) = some (l.get ⟨i + 1, hi⟩)) ∧
    (t ≠ 1 → 2 ≤ l.length) ∧
    ∀ fuel2 l2, ancestorsFuel parent fuel2 t = some l2 → l2 = l :=
  ⟨ancestorsFuel_head H, ancestorsFuel_getLast H, ancestorsFuel_parent_step H,
   fun ht => ancestorsFuel_length_two H ht, fun _ _ h2 => ancestorsFuel_det H h2⟩

theorem count_C4_witness :
    ancestorsFuel exampleParentF 9 3 = some [3, 2, 1] ∧
    ([3, 2, 1] : List Nat).head? = some 3 ∧ ([3, 2, 1] : List Nat).getLast? = some 1 ∧
    ((3 : Nat) ≠ 1 → 2 ≤ ([3, 2, 1] : List Nat).length) := by
  have h := count_C4 exampleParentF 9 3 [3, 2, 1] (by decide)
  exact ⟨by decide, h.1, h.2.1, h.2.2.2.1⟩

/-- C9: when `a` is an (inclusive) ancestor of `b`, the LCA of the pair
is `a` in either iteration order, and the LCA of a singleton is the
element itself, matching the singleton bypass in `add_rank_count`. -/
theorem count_C9 (parent : Nat → Option Nat) (fuel a b x : Nat) (la lb lx : List Nat)
    (ha : ancestorsFuel parent fuel a = some la)
    (hb : ancestorsFuel parent fuel b = some lb)
    (hx : ancestorsFuel parent fuel x = some lx)
    (hanc : a ∈ lb) :
    findLca [a, b] parent fuel = some a ∧ findLca [b, a] parent fuel = some a ∧
    findLca [x] parent fuel = some x := by
  have hcom : ∀ t ∈ [a, b], ∀ l, ancestorsFuel parent fuel t = some l → a ∈ l := by
    intro t ht l hl
    rcases List.mem_cons.mp ht with rfl | ht
    · rw [ancestorsFuel_det ha hl]
      exact ancestorsFuel_self_mem ha
    · rcases List.mem_cons.mp ht with rfl | ht
      · rw [ancestorsFuel_det hb hl]
        exact hanc
      · simp at ht
  have hcom2 : ∀ t ∈ [b, a], ∀ l, ancestorsFuel parent fuel t = some l → a ∈ l := by
    intro t ht l hl
    rcases List.mem_cons.mp ht with rfl | ht
    · rw [ancestorsFuel_det hb hl]
      exact hanc
    · rcases List.mem_cons.mp ht with rfl | ht
      · rw [ancestorsFuel_det ha hl]
        exact ancestorsFuel_self_mem ha
      · simp at ht
  have hchab : ∀ t ∈ [a, b], ∃ l, ancestorsFuel parent fuel t = some l := by
    intro t ht
    rcases List.mem_cons.mp ht with rfl | ht
    · exact ⟨la, ha⟩
    · rcases List.mem_cons.mp ht with rfl | ht
      · exact ⟨lb, hb⟩
      · simp at ht
  have hchba : ∀ t ∈ [b, a], ∃ l, ancestorsFuel parent fuel t = some l := by
    intro t ht
    rcases List.mem_cons.mp ht with rfl | ht
    · exact ⟨lb, hb⟩
    · rcases List.mem_cons.mp ht with rfl | ht
      · exact ⟨la, ha⟩
      · simp at ht
  refine ⟨?_, ?_, ?_⟩
  · obtain ⟨r, hres, hmem, hdeep⟩ := findLca_spec parent fuel a [b] hchab
    have hrla : r ∈ la := hmem a (by simp) la ha
    have hra : r = a := lca_result_forces ha hrla
      (fun lr hlr => hdeep a lr la hcom hlr ha)
    exact hra ▸ hres
  · obtain ⟨r, hres, hmem, hdeep⟩ := findLca_spec parent fuel b [a] hchba
    have hrla : r ∈ la := hmem a (by simp) la ha
    have hra : r = a := lca_result_forces ha hrla
      (fun lr hlr => hdeep a lr la hcom2 hlr ha)
    exact hra ▸ hres
  · have hchx : ∀ t ∈ [x], ∃ l, ancestorsFuel parent fuel t = some l := by
      intro t ht
      rcases List.mem_cons.mp ht with rfl | ht
      · exact ⟨lx, hx⟩
      · simp at ht
    have hcomx : ∀ t ∈ [x], ∀ l, ancestorsFuel parent fuel t = some l → x ∈ l := by
      intro t ht l hl
      rcases List.mem_cons.mp ht with rfl | ht
      · rw [ancestorsFuel_det hx hl]
        exact ancestorsFuel_self_mem hx
      · simp at ht
    obtain ⟨r, hres, hmem, hdeep⟩ := findLca_spec parent fuel x [] hchx
    have hrlx : r ∈ lx := hmem x (by simp) lx hx
    have hrx : r = x := lca_result_forces hx hrlx
      (fun lr hlr => hdeep x lr lx hcomx hlr hx)
    exact hrx ▸ hres

theorem count_C9_witness :
    ancestorsFuel exampleParentF 9 2 = some [2, 1] ∧
    ancestorsFuel exampleParentF 9 3 = some [3, 2, 1] ∧
    (2 : Nat) ∈ [3, 2, 1] ∧
    findLca [2, 3] exampleParentF 9 = some 2 ∧ findLca [3, 2] exampleParentF 9 = some 2 ∧
    findLca [4] exampleParentF 9 = some 4 := by
  have h := count_C9 exampleParentF 9 2 3 4 [2, 1] [3, 2, 1] [4, 2, 1]
    (by decide) (by decide) (by decide) (by decide)
  exact ⟨by decide, by decide, by decide, h.1, h.2.1, h.2.2⟩

/-! ### First pass of `load_tax_info` -/

theorem updateFn_self {α : Type} (m : Nat → Option α) (k : Nat) (v : α) :
    updateFn m k v k = some v := by
  simp [updateFn]

theorem updateFn_other {α : Type} (m : Nat → Option α) (k : Nat) (v : α) {x : Nat}
    (hx : x ≠ k) : updateFn m k v x = m x := by
  simp [updateFn, hx]

theorem foldOpt_cons_some {α β : Type} {f : β → α → Option β} {b res : β} {a : α} {l : List α}
    (h : foldOpt f b (a :: l) = some res) :
    ∃ b2, f b a = some b2 ∧ foldOpt f b2 l = some res := by
  rw [foldOpt_cons] at h
  rcases hfa : f b a with _ | b2
  · rw [hfa] at h; exact absurd h (by simp)
  · rw [hfa] at h
    exact ⟨b2, rfl, h⟩

theorem acceptable_mem_nine {s : String} (h : s ∈ acceptableRanks) : s ∈ nineRanks := by
  fin_cases h <;> simp [nineRanks]

/-- A single first-pass iteration only touches the key `r.taxId`. -/
theorem firstPassStep_preserve {maps m1 : (Nat → Option String) × (Nat → Option String)}
    {r : TaxRecord} (h : firstPassStep maps r = some m1) :
    ∀ k, k ≠ r.taxId → m1.1 k = maps.1 k ∧ m1.2 k = maps.2 k := by
  intro k hk
  unfold firstPassStep at h
  split at h
  · have hm : m1 = (updateFn maps.1 r.taxId r.rank, updateFn maps.2 r.taxId r.rank) :=
      (Option.some_inj.mp h).symm
    subst hm
    exact ⟨updateFn_other _ _ _ hk, updateFn_other _ _ _ hk⟩
  · split at h
    · rename_i h1
      split at h
      · have hm : m1 = (updateFn (updateFn maps.1 r.taxId r.rank) 1 "root",
            updateFn maps.2 1 "root") := (Option.some_inj.mp h).symm
        subst hm
        have hk1 : k ≠ 1 := by rw [← h1]; exact hk
        exact ⟨(updateFn_other _ _ _ hk1).trans (updateFn_other _ _ _ hk),
               updateFn_other _ _ _ hk1⟩
      · exact absurd h (by simp)
    · have hm : m1 = (updateFn maps.1 r.taxId r.rank, maps.2) := (Option.some_inj.mp h).symm
      subst hm
      exact ⟨updateFn_other _ _ _ hk, rfl⟩

/-- Keys untouched by any record keep their first-pass values. -/
theorem pass1_preserve {records : List TaxRecord}
    {maps res : (Nat → Option String) × (Nat → Option String)}
    (h : foldOpt firstPassStep maps records = some res) :
    ∀ k, (∀ r ∈ records, r.taxId ≠ k) → res.1 k = maps.1 k ∧ res.2 k = maps.2 k := by
  induction records generalizing maps with
  | nil =>
    intro k _
    have : res = maps := Option.some_inj.mp ((foldOpt_nil _ _ ▸ h).symm)
    subst this
    exact ⟨rfl, rfl⟩
  | cons r0 rest ih =>
    intro k hk
    obtain ⟨m1, hstep, hrest⟩ := foldOpt_cons_some h
    have h1 := firstPassStep_preserve hstep k (Ne.symm (hk r0 (by simp)))
    have h2 := ih hrest k (fun r hr => hk r (by simp [hr]))
    exact ⟨h2.1.trans h1.1, h2.2.trans h1.2⟩

/-- All standard-rank values produced by the first pass lie in the
closed 9-label set. -/
theorem pass1_nine {records : List TaxRecord}
    {maps res : (Nat → Option String) × (Nat → Option String)}
    (h : foldOpt firstPassStep maps records = some res)
    (hbase : ∀ k s, maps.2 k = some s → s ∈ nineRanks) :
    ∀ k s, res.2 k = some s → s ∈ nineRanks := by
  induction records generalizing maps with
  | nil =>
    have : res = maps := Option.some_inj.mp ((foldOpt_nil _ _ ▸ h).symm)
    subst this
    exact hbase
  | cons r0 rest ih =>
    obtain ⟨m1, hstep, hrest⟩ := foldOpt_cons_some h
    refine ih hrest ?_
    intro k s hks
    unfold firstPassStep at hstep
    split at hstep
    · rename_i hacc
      have hm : m1 = (updateFn maps.1 r0.taxId r0.rank, updateFn maps.2 r0.taxId r0.rank) :=
        (Option.some_inj.mp hstep).symm
      subst hm
      simp only [updateFn] at hks
      split at hks
      · exact (Option.some_inj.mp hks) ▸ acceptable_mem_nine (List.elem_iff.mp hacc)
      · exact hbase k s hks
    · split at hstep
      · split at hstep
        · have hm : m1 = (updateFn (updateFn maps.1 r0.taxId r0.rank) 1 "root",
              updateFn maps.2 1 "root") := (Option.some_inj.mp hstep).symm
          subst hm
          simp only [updateFn] at hks
          split at hks
          · simp [← Option.some_inj.mp hks, nineRanks]
          · exact hbase k s hks
        · exact absurd hstep (by simp)
      · have hm : m1 = (updateFn maps.1 r0.taxId r0.rank, maps.2) :=
          (Option.some_inj.mp hstep).symm
        subst hm
        exact hbase k s hks

/-- The first pass, at the unique record carrying a given tax ID
(duplicate-free record list): an acceptable rank becomes both the raw
and the standard rank; the root special case forces `"root"` and checks
the parent; otherwise the raw rank is recorded and the standard-rank
map is untouched at that key. -/
theorem pass1_record {records : List TaxRecord}
    {maps res : (Nat → Option String) × (Nat → Option String)} {r : TaxRecord}
    (hnd : (records.map TaxRecord.taxId).Nodup) (hr : r ∈ records)
    (h : foldOpt firstPassStep maps records = some res) :
    (r.rank ∈ acceptableRanks → res.1 r.taxId = some r.rank ∧ res.2 r.taxId = some r.rank) ∧
    (r.rank ∉ acceptableRanks → r.taxId = 1 →
      res.1 1 = some "root" ∧ res.2 1 = some "root" ∧ r.parentId = 1) ∧
    (r.rank ∉ acceptableRanks → r.taxId ≠ 1 →
      res.1 r.taxId = some r.rank ∧ res.2 r.taxId = maps.2 r.taxId) := by
  induction records generalizing maps with
  | nil => simp at hr
  | cons r0 rest ih =>
    obtain ⟨m1, hstep, hrest⟩ := foldOpt_cons_some h
    rw [List.map_cons, List.nodup_cons] at hnd
    obtain ⟨hnotin, hndrest⟩ := hnd
    rcases List.mem_cons.mp hr with rfl | hr2
    · have hkeep : ∀ r2 ∈ rest, r2.taxId ≠ r.taxId := by
        intro r2 hr2 he
        exact hnotin (he ▸ List.mem_map_of_mem TaxRecord.taxId hr2)
      have hpres := pass1_preserve hrest r.taxId hkeep
      unfold firstPassStep at hstep
      split at hstep
      · rename_i hacc0
        have hm : m1 = (updateFn maps.1 r.taxId r.rank, updateFn maps.2 r.taxId r.rank) :=
          (Option.some_inj.mp hstep).symm
        subst hm
        have hGacc : r.rank ∈ acceptableRanks := List.elem_iff.mp hacc0
        exact ⟨fun _ => ⟨hpres.1.trans (updateFn_self _ _ _),
                         hpres.2.trans (updateFn_self _ _ _)⟩,
               fun hnacc _ => absurd hGacc hnacc, fun hnacc _ => absurd hGacc hnacc⟩
      · rename_i hacc0
        have hGnacc : r.rank ∉ acceptableRanks := fun hmem => hacc0 (List.elem_iff.mpr hmem)
        split at hstep
        · rename_i h1
          split at hstep
          · rename_i hpar
            have hm : m1 = (updateFn (updateFn maps.1 r.taxId r.rank) 1 "root",
                updateFn maps.2 1 "root") := (Option.some_inj.mp hstep).symm
            subst hm
            have hp1 := pass1_preserve hrest 1 (fun r2 h2 he => hkeep r2 h2 (he.trans h1.symm))
            exact ⟨fun hacc => absurd hacc hGnacc,
                   fun _ _ =>
                     ⟨hp1.1.trans (updateFn_self (updateFn maps.1 r.taxId r.rank) 1 "root"),
                      hp1.2.trans (updateFn_self maps.2 1 "root"), hpar⟩,
                   fun _ hne => absurd h1 hne⟩
          · exact absurd hstep (by simp)
        · rename_i h1
          have hm : m1 = (updateFn maps.1 r.taxId r.rank, maps.2) :=
            (Option.some_inj.mp hstep).symm
          subst hm
          exact ⟨fun hacc => absurd hacc hGnacc, fun _ h1e => absurd h1e h1,
                 fun _ _ => ⟨hpres.1.trans (updateFn_self _ _ _), hpres.2⟩⟩
    · have hne0 : r.taxId ≠ r0.taxId := by
        intro he
        exact hnotin (he ▸ List.mem_map_of_mem TaxRecord.taxId hr2)
      have hstep_pres := firstPassStep_preserve hstep r.taxId hne0
      have ihh := ih hndrest hr2 hrest
      exact ⟨ihh.1, ihh.2.1,
             fun hnacc h1 => ⟨(ihh.2.2 hnacc h1).1, ((ihh.2.2 hnacc h1).2).trans hstep_pres.2⟩⟩

/-! ### Second pass of `load_tax_info` -/

theorem secondPassStep_cases {parent : Nat → Option Nat} {fuel : Nat}
    {std m2 : Nat → Option String} {r : TaxRecord}
    (h : secondPassStep parent fuel std r = some m2) :
    ((std r.taxId).isSome = true ∧ m2 = std) ∨
    (std r.taxId = none ∧ ∃ ancs s, ancestorsFuel parent fuel r.taxId = some ancs ∧
      ancs.findSome? std = some s ∧ m2 = updateFn std r.taxId s) := by
  unfold secondPassStep at h
  split at h
  · rename_i hs
    exact Or.inl ⟨hs, (Option.some_inj.mp h).symm⟩
  · rename_i hns
    split at h
    · exact absurd h (by simp)
    · rcases hanc : ancestorsFuel parent fuel r.taxId with _ | ancs
      · rw [hanc] at h
        exact absurd h (by simp)
      · rw [hanc] at h
        have h2 : (match ancs.findSome? std with
            | none => none
            | some s => some (updateFn std r.taxId s)) = some m2 := h
        rcases hfs : ancs.findSome? std with _ | s
        · rw [hfs] at h2
          exact absurd h2 (by simp)
        · rw [hfs] at h2
          exact Or.inr ⟨Option.not_isSome_iff_eq_none.mp hns, ancs, s, rfl, hfs,
                        (Option.some_inj.mp h2).symm⟩

theorem secondPassStep_mono {parent : Nat → Option Nat} {fuel : Nat}
    {std m2 : Nat → Option String} {r : TaxRecord}
    (h : secondPassStep parent fuel std r = some m2) :
    ∀ k s, std k = some s → m2 k = some s := by
  rcases secondPassStep_cases h with ⟨_, rfl⟩ | ⟨hnone, ancs, s2, _, _, rfl⟩
  · exact fun _ _ hks => hks
  · intro k s hks
    have hk : k ≠ r.taxId := by
      intro he
      rw [he, hnone] at hks
      exact absurd hks (by simp)
    rw [updateFn_other _ _ _ hk]
    exact hks

theorem pass2_fold_mono {records : List TaxRecord} {parent : Nat → Option Nat} {fuel : Nat}
    {std m2 : Nat → Option String}
    (h : foldOpt (secondPassStep parent fuel) std records = some m2) :
    ∀ k s, std k = some s → m2 k = some s := by
  induction records generalizing std with
  | nil =>
    have : m2 = std := Option.some_inj.mp ((foldOpt_nil _ _ ▸ h).symm)
    subst this
    exact fun _ _ hks => hks
  | cons r0 rest ih =>
    obtain ⟨m1, hstep, hrest⟩ := foldOpt_cons_some h
    exact fun k s hks => ih hrest k s (secondPassStep_mono hstep k s hks)

theorem pass2_fold_domain {records : List TaxRecord} {parent : Nat → Option Nat} {fuel : Nat}
    {std m2 : Nat → Option String}
    (h : foldOpt (secondPassStep parent fuel) std records = some m2) :
    ∀ r ∈ records, (m2 r.taxId).isSome = true := by
  induction records generalizing std with
  | nil => intro r hr; simp at hr
  | cons r0 rest ih =>
    intro r hr
    obtain ⟨m1, hstep, hrest⟩ := foldOpt_cons_some h
    rcases List.mem_cons.mp hr with rfl | hr2
    · have h1 : (m1 r.taxId).isSome = true := by
        rcases secondPassStep_cases hstep with ⟨hs, rfl⟩ | ⟨_, ancs, s, _, _, rfl⟩
        · exact hs
        · rw [updateFn_self]
          rfl
      obtain ⟨s, hs⟩ := Option.isSome_iff_exists.mp h1
      rw [Option.isSome_iff_exists]
      exact ⟨s, pass2_fold_mono hrest _ _ hs⟩
    · exact ih hrest r hr2

/-- A first hit of the evolving map `m` along a chain corresponds to a
first hit of the pass-one map `std1` with the same value. -/
theorem chain_findSome_back {parent : Nat → Option Nat} {fuel : Nat}
    {std1 m : Nat → Option String} {s : String}
    (hinv : Pass2Inv parent fuel std1 m) :
    ∀ (ancs : List Nat) (x : Nat), ancestorsFuel parent fuel x = some ancs →
      ancs.findSome? m = some s → ancs.findSome? std1 = some s := by
  intro ancs
  induction ancs with
  | nil => intro x _ h; simp at h
  | cons y rest ih =>
    intro x hx h
    have hy : y = x := by
      have hh := ancestorsFuel_head hx
      rw [List.head?_cons] at hh
      exact Option.some_inj.mp hh
    subst hy
    rw [List.findSome?_cons] at h ⊢
    rcases hmy : m y with _ | v
    · rw [hmy] at h
      have hstd1y : std1 y = none := by
        rcases hs1 : std1 y with _ | v2
        · rfl
        · have hcontra := hinv.1 y v2 hs1
          rw [hmy] at hcontra
          exact absurd hcontra (by simp)
      rw [hstd1y]
      rcases rest with _ | ⟨z, rest2⟩
      · simp at h
      · have hdrop := ancestorsFuel_drop hx 1 (by simp)
        have hz : ancestorsFuel parent fuel z = some (z :: rest2) := by simpa using hdrop
        exact ih z hz h
    · rw [hmy] at h
      have hv : v = s := Option.some_inj.mp h
      subst hv
      rcases hinv.2 y v hmy with h1 | ⟨_, l, hl, hfs⟩
      · simp [h1]
      · have hlv : l = y :: rest := ancestorsFuel_det hx hl
        rw [hlv, List.findSome?_cons] at hfs
        exact hfs

theorem secondPassStep_inv {parent : Nat → Option Nat} {fuel : Nat}
    {std1 m m2 : Nat → Option String} {r : TaxRecord}
    (h : secondPassStep parent fuel m r = some m2)
    (hinv : Pass2Inv parent fuel std1 m) : Pass2Inv parent fuel std1 m2 := by
  rcases secondPassStep_cases h with ⟨_, rfl⟩ | ⟨hnone, ancs, s, hanc, hfs, rfl⟩
  · exact hinv
  · constructor
    · intro k s2 hks
      have hk : k ≠ r.taxId := by
        intro he
        have hcontra := hinv.1 k s2 hks
        rw [he, hnone] at hcontra
        exact absurd hcontra (by simp)
      rw [updateFn_other _ _ _ hk]
      exact hinv.1 k s2 hks
    · intro k s2 hks
      by_cases hk : k = r.taxId
      · subst hk
        rw [updateFn_self] at hks
        have hs2 : s = s2 := Option.some_inj.mp hks
        subst hs2
        right
        have hstd1 : std1 r.taxId = none := by
          rcases hs1 : std1 r.taxId with _ | v
          · rfl
          · have hcontra := hinv.1 r.taxId v hs1
            rw [hnone] at hcontra
            exact absurd hcontra (by simp)
        exact ⟨hstd1, ancs, hanc, chain_findSome_back hinv ancs r.taxId hanc hfs⟩
      · rw [updateFn_other _ _ _ hk] at hks
        exact hinv.2 k s2 hks

theorem pass2_fold_inv {records : List TaxRecord} {parent : Nat → Option Nat} {fuel : Nat}
    {std1 m m2 : Nat → Option String}
    (h : foldOpt (secondPassStep parent fuel) m records = some m2)
    (hinv : Pass2Inv parent fuel std1 m) : Pass2Inv parent fuel std1 m2 := by
  induction records generalizing m with
  | nil =>
    have : m2 = m := Option.some_inj.mp ((foldOpt_nil _ _ ▸ h).symm)
    subst this
    exact hinv
  | cons r0 rest ih =>
    obtain ⟨m1, hstep, hrest⟩ := foldOpt_cons_some h
    exact ih hrest (secondPassStep_inv hstep hinv)

theorem loadTaxInfo_destruct {records : List TaxRecord} {fuel : Nat}
    {p : Nat → Option Nat} {rk st : Nat → Option String}
    (H : loadTaxInfo records fuel = some (p, rk, st)) :
    p = buildParent records ∧ ∃ std1, firstPassMaps records = some (rk, std1) ∧
      foldOpt (secondPassStep (buildParent records) fuel) std1 records = some st := by
  unfold loadTaxInfo at H
  split at H
  · exact absurd H (by simp)
  · rename_i rk1 std1 hfp
    split at H
    · exact absurd H (by simp)
    · rename_i st1 h2
      simp only [Option.some_inj, Prod.mk.injEq] at H
      obtain ⟨hp, hrk, hst⟩ := H
      subst hp
      subst hrk
      subst hst
      exact ⟨rfl, std1, hfp, h2⟩

theorem initRankMaps_nine : ∀ k s, initRankMaps.2 k = some s → s ∈ nineRanks := by
  intro k s h
  simp only [initRankMaps] at h
  split at h
  · simp [← Option.some_inj.mp h, nineRanks]
  · exact absurd h (by simp)

/-- Every standard rank produced by a successful `load_tax_info` lies in
the closed 9-label set. -/
theorem loadTaxInfo_std_nine {records : List TaxRecord} {fuel : Nat}
    {p : Nat → Option Nat} {rk st : Nat → Option String}
    (H : loadTaxInfo records fuel = some (p, rk, st)) :
    ∀ k s, st k = some s → s ∈ nineRanks := by
  obtain ⟨hp, std1, hfp, h2⟩ := loadTaxInfo_destruct H
  have hnine1 : ∀ k s, std1 k = some s → s ∈ nineRanks := by
    intro k s hks
    exact pass1_nine hfp initRankMaps_nine k s hks
  have hinv : Pass2Inv (buildParent records) fuel std1 st :=
    pass2_fold_inv h2 ⟨fun _ _ hks => hks, fun k s hks => Or.inl hks⟩
  intro k s hks
  rcases hinv.2 k s hks with h1 | ⟨_, l, _, hfs⟩
  · exact hnine1 k s h1
  · obtain ⟨a, _, ha⟩ := List.exists_of_findSome?_eq_some hfs
    exact hnine1 a s ha

/-! ### Claims C2 and C3 -/

/-- C2: after a successful tree construction from a duplicate-free
record list containing the root, the pre-seeded ID 0 and every recorded
tax ID carry exactly one standard rank drawn from the closed 9-label
set; the rank equals the record's own raw rank whenever that rank is
one of the seven standard labels, and otherwise it is the pass-one
standard rank of the first (nearest, inclusive) element of the node's
ancestor chain that owns one. -/
theorem count_C2 (records : List TaxRecord) (fuel : Nat)
    (p : Nat → Option Nat) (rk st : Nat → Option String)
    (hnd : (records.map TaxRecord.taxId).Nodup)
    (h0 : ∀ r ∈ records, r.taxId ≠ 0)
    (hroot : ∃ r ∈ records, r.taxId = 1)
    (H : loadTaxInfo records fuel = some (p, rk, st)) :
    st 0 = some "unclassified" ∧
    ∀ r ∈ records, ∃ s, st r.taxId = some s ∧ s ∈ nineRanks ∧
      (r.rank ∈ acceptableRanks → s = r.rank) ∧
      (r.rank ∉ acceptableRanks →
        ∀ rk1 std1, firstPassMaps records = some (rk1, std1) →
          ∃ l, ancestorsFuel p fuel r.taxId = some l ∧ l.findSome? std1 = some s) := by
  obtain ⟨hp, std1, hfp, h2⟩ := loadTaxInfo_destruct H
  subst hp
  have hfp0 : foldOpt firstPassStep initRankMaps records = some (rk, std1) := hfp
  have hext := pass2_fold_mono h2
  constructor
  · have hpres := pass1_preserve hfp0 0 (fun r hr he => h0 r hr he)
    have h01 : std1 0 = some "unclassified" := hpres.2.trans rfl
    exact hext 0 _ h01
  · intro r hr
    have hdom := pass2_fold_domain h2 r hr
    obtain ⟨s, hs⟩ := Option.isSome_iff_exists.mp hdom
    refine ⟨s, hs, loadTaxInfo_std_nine H r.taxId s hs, ?_, ?_⟩
    · intro hacc
      have h1 := (pass1_record hnd hr hfp0).1 hacc
      have hstd1 : std1 r.taxId = some r.rank := h1.2
      have hst := hext r.taxId r.rank hstd1
      rw [hs] at hst
      exact Option.some_inj.mp hst
    · intro hnacc rk1 std1x hfpx
      rw [hfp] at hfpx
      simp only [Option.some_inj, Prod.mk.injEq] at hfpx
      obtain ⟨hrk1, hstd1x⟩ := hfpx
      subst hstd1x
      have hinv : Pass2Inv (buildParent records) fuel std1 st :=
        pass2_fold_inv h2 ⟨fun _ _ hks => hks, fun k s2 hks => Or.inl hks⟩
      rcases hinv.2 r.taxId s hs with h1 | ⟨_, l, hl, hfs⟩
      · by_cases h1e : r.taxId = 1
        · have hro := (pass1_record hnd hr hfp0).2.1 hnacc h1e
          have hstd1root : std1 1 = some "root" := hro.2.1
          rw [h1e, hstd1root] at h1
          have hsr : s = "root" := (Option.some_inj.mp h1).symm
          subst hsr
          refine ⟨[1], ?_, ?_⟩
          · rw [h1e]
            exact ancestorsFuel_root _ _
          · rw [List.findSome?_cons, hstd1root]
        · have h3 := (pass1_record hnd hr hfp0).2.2 hnacc h1e
          have hstd1n : std1 r.taxId = none := by
            have hin : std1 r.taxId = initRankMaps.2 r.taxId := h3.2
            rw [hin]
            simp [initRankMaps, h0 r hr]
          rw [hstd1n] at h1
          exact absurd h1 (by simp)
      · exact ⟨l, hl, hfs⟩

theorem count_C2_witness :
    ∃ p rk st, loadTaxInfo exampleRecords 9 = some (p, rk, st) ∧
      st 0 = some "unclassified" ∧
      ∀ r ∈ exampleRecords, ∃ s, st r.taxId = some s ∧ s ∈ nineRanks ∧
        (r.rank ∈ acceptableRanks → s = r.rank) ∧
        (r.rank ∉ acceptableRanks →
          ∀ rk1 std1, firstPassMaps exampleRecords = some (rk1, std1) →
            ∃ l, ancestorsFuel p 9 r.taxId = some l ∧ l.findSome? std1 = some s) := by
  have hsome : (loadTaxInfo exampleRecords 9).isSome = true := by decide
  obtain ⟨⟨p, rk, st⟩, hps⟩ := Option.isSome_iff_exists.mp hsome
  have h := count_C2 exampleRecords 9 p rk st (by decide) (by decide)
    ⟨⟨1, 1, "root"⟩, by decide, rfl⟩ hps
  exact ⟨p, rk, st, hps, h.1, h.2⟩

/-- C3 counterexample: a root record whose stated rank is the standard
label `"domain"` (and whose recorded parent is 5, not 1) is accepted
without any assertion, and taxon 1 keeps raw and standard rank
`"domain"` — the root is not forced to `"root"` in this case. -/
theorem count_C3_cex :
    (loadTaxInfo [⟨1, 5, "domain"⟩] 9).map (fun m => (m.2.1 1, m.2.2 1)) =
      some (some "domain", some "domain") := by
  decide

/-- C3 (amended): the root special case applies only when the record
for taxon 1 carries a rank outside the seven standard labels: then the
parent must equal 1 and both ranks are forced to `"root"`; when the
rank is one of the seven standard labels it is kept as both the raw and
the standard rank of taxon 1 (and the parent is not checked). -/
theorem count_C3_amended (records : List TaxRecord) (fuel : Nat)
    (p : Nat → Option Nat) (rk st : Nat → Option String) (r : TaxRecord)
    (hnd : (records.map TaxRecord.taxId).Nodup) (hr : r ∈ records) (h1 : r.taxId = 1)
    (H : loadTaxInfo records fuel = some (p, rk, st)) :
    (r.rank ∉ acceptableRanks →
      rk 1 = some "root" ∧ st 1 = some "root" ∧ r.parentId = 1) ∧
    (r.rank ∈ acceptableRanks → rk 1 = some r.rank ∧ st 1 = some r.rank) := by
  obtain ⟨hp, std1, hfp, h2⟩ := loadTaxInfo_destruct H
  have hfp0 : foldOpt firstPassStep initRankMaps records = some (rk, std1) := hfp
  have hext := pass2_fold_mono h2
  have hrec := pass1_record hnd hr hfp0
  constructor
  · intro hnacc
    have hro := hrec.2.1 hnacc h1
    have hrk : rk 1 = some "root" := hro.1
    have hstd1 : std1 1 = some "root" := hro.2.1
    exact ⟨hrk, hext 1 _ hstd1, hro.2.2⟩
  · intro hacc
    have ha := hrec.1 hacc
    have hrk : rk r.taxId = some r.rank := ha.1
    have hstd1 : std1 r.taxId = some r.rank := ha.2
    rw [h1] at hrk hstd1
    exact ⟨hrk, hext 1 _ hstd1⟩

theorem count_C3_amended_witness :
    ∃ p rk st, loadTaxInfo exampleRecords 9 = some (p, rk, st) ∧
      rk 1 = some "root" ∧ st 1 = some "root" := by
  have hsome : (loadTaxInfo exampleRecords 9).isSome = true := by decide
  obtain ⟨⟨p, rk, st⟩, hps⟩ := Option.isSome_iff_exists.mp hsome
  have h := count_C3_amended exampleRecords 9 p rk st ⟨1, 1, "root"⟩
    (by decide) (by decide) rfl hps
  have h2 := h.1 (by decide)
  exact ⟨p, rk, st, hps, h2.1, h2.2.1⟩

/-! ### Per-read classification -/

theorem addRankCount_some {taxIds : List Nat} {rankMap stdMap : Nat → Option String}
    {parent : Nat → Option Nat} {fuel : Nat} {out : ClassifyOutcome}
    (hne : taxIds ≠ [])
    (H : addRankCount taxIds rankMap stdMap parent fuel = some out) :
    ∃ t r s, out = ClassifyOutcome.classified t r s ∧ rankMap t = some r ∧ stdMap t = some s ∧
      ((taxIds.length = 1 ∧ taxIds = [t]) ∨
       (2 ≤ taxIds.length ∧
         findLca (taxIds.filter (fun i => i != 0)) parent fuel = some t)) := by
  unfold addRankCount at H
  rw [if_neg (by simpa using hne)] at H
  rcases hres : (if taxIds.length = 1 then taxIds.head?
      else findLca (taxIds.filter (fun i => i != 0)) parent fuel) with _ | taxId
  · rw [hres] at H
    exact absurd H (by simp)
  · rw [hres] at H
    have H2 : (match rankMap taxId, stdMap taxId with
        | some rank, some std => some (ClassifyOutcome.classified taxId rank std)
        | _, _ => none) = some out := H
    rcases hrk : rankMap taxId with _ | rank
    · rw [hrk] at H2
      exact absurd H2 (by simp)
    · rw [hrk] at H2
      rcases hstd : stdMap taxId with _ | std
      · rw [hstd] at H2
        exact absurd H2 (by simp)
      · rw [hstd] at H2
        refine ⟨taxId, rank, std, (Option.some_inj.mp H2).symm, hrk, hstd, ?_⟩
        by_cases hlen : taxIds.length = 1
        · rw [if_pos hlen] at hres
          refine Or.inl ⟨hlen, ?_⟩
          rcases taxIds with _ | ⟨x, rest⟩
          · simp at hlen
          · rcases rest with _ | _
            · rw [List.head?_cons] at hres
              rw [Option.some_inj.mp hres]
            · simp at hlen
        · rw [if_neg hlen] at hres
          refine Or.inr ⟨?_, hres⟩
          rcases taxIds with _ | ⟨x, rest⟩
          · exact absurd rfl hne
          · rcases rest with _ | _
            · simp at hlen
            · simp

theorem addRankCount_classified_maps {taxIds : List Nat} {rankMap stdMap : Nat → Option String}
    {parent : Nat → Option Nat} {fuel t : Nat} {r s : String}
    (H : addRankCount taxIds rankMap stdMap parent fuel =
      some (ClassifyOutcome.classified t r s)) :
    rankMap t = some r ∧ stdMap t = some s := by
  by_cases hne : taxIds = []
  · subst hne
    unfold addRankCount at H
    simp at H
  · obtain ⟨t2, r2, s2, hout, hrk, hstd, _⟩ := addRankCount_some hne H
    injection hout with h1 h2 h3
    subst h1
    subst h2
    subst h3
    exact ⟨hrk, hstd⟩

/-- C8: a classified read's resolved tax ID is the sole candidate when
there is exactly one (even when it is 0), and otherwise the LCA of the
candidates with 0 discarded; its raw and standard rank are the rank
maps' entries at the resolved ID. -/
theorem count_C8 (taxIds : List Nat) (rankMap stdMap : Nat → Option String)
    (parent : Nat → Option Nat) (fuel : Nat) (out : ClassifyOutcome)
    (hne : taxIds ≠ [])
    (H : addRankCount taxIds rankMap stdMap parent fuel = some out) :
    ∃ t r s, out = ClassifyOutcome.classified t r s ∧ rankMap t = some r ∧ stdMap t = some s ∧
      ((taxIds.length = 1 ∧ taxIds = [t]) ∨
       (2 ≤ taxIds.length ∧
         findLca (taxIds.filter (fun i => i != 0)) parent fuel = some t)) :=
  addRankCount_some hne H

theorem count_C8_witness :
    ([3, 4] : List Nat) ≠ [] ∧
    ∃ t r s, ClassifyOutcome.classified 2 "genus" "genus" = ClassifyOutcome.classified t r s ∧
      exampleRankF t = some r ∧ exampleStdF t = some s ∧
      ((([3, 4] : List Nat).length = 1 ∧ [3, 4] = [t]) ∨
       (2 ≤ ([3, 4] : List Nat).length ∧
         findLca (([3, 4] : List Nat).filter (fun i => i != 0)) exampleParentF 9 = some t)) :=
  ⟨by decide, count_C8 [3, 4] exampleRankF exampleStdF exampleParentF 9
    (ClassifyOutcome.classified 2 "genus" "genus") (by decide) (by decide)⟩

/-! ### Loading the classification stream -/

theorem loadStep_none_iff (m : List (String × List Nat)) (r : ClassRecord) :
    loadStep m r = none ↔
      r.readName ≠ "readID" ∧ r.seqId ≠ "no rank" ∧ r.taxId = 0 ∧
        r.seqId ≠ "unclassified" := by
  unfold loadStep
  by_cases h1 : r.readName = "readID"
  · simp [h1]
  · by_cases h2 : r.seqId = "no rank"
    · simp [h1, h2]
    · by_cases h3 : r.taxId = 0
      · by_cases h4 : r.seqId = "unclassified"
        · simp [h1, h2, h3, h4]
        · simp [h1, h2, h3, h4]
      · simp [h1, h2, h3]

theorem loadFold_none_iff :
    ∀ (records : List ClassRecord) (m : List (String × List Nat)),
      foldOpt loadStep m records = none ↔
        ∃ r ∈ records, r.readName ≠ "readID" ∧ r.seqId ≠ "no rank" ∧ r.taxId = 0 ∧
          r.seqId ≠ "unclassified" := by
  intro records
  induction records with
  | nil => intro m; simp [foldOpt_nil]
  | cons r0 rest ih =>
    intro m
    rw [foldOpt_cons]
    rcases hstep : loadStep m r0 with _ | m1
    · constructor
      · intro _
        exact ⟨r0, List.mem_cons_self _ _, (loadStep_none_iff m r0).mp hstep⟩
      · intro _
        rfl
    · constructor
      · intro h
        obtain ⟨r, hr, hb⟩ := (ih m1).mp h
        exact ⟨r, List.mem_cons_of_mem _ hr, hb⟩
      · rintro ⟨r, hr, hb⟩
        rcases List.mem_cons.mp hr with rfl | hr2
        · rw [(loadStep_none_iff m r).mpr hb] at hstep
          exact absurd hstep (by simp)
        · exact (ih m1).mpr ⟨r, hr2, hb⟩

theorem insertTaxId_inserted (m : List (String × List Nat)) (name : String) (t : Nat) :
    ∃ e ∈ insertTaxId m name t, e.1 = name ∧ t ∈ e.2 := by
  unfold insertTaxId
  split
  · rename_i hany
    obtain ⟨e, he, hname⟩ := List.any_eq_true.mp hany
    have hcond : e.1 = name := of_decide_eq_true hname
    refine ⟨(e.1, if e.2.contains t then e.2 else e.2 ++ [t]), ?_, hcond, ?_⟩
    · have hfe : (fun p => if p.1 = name
          then (p.1, if p.2.contains t then p.2 else p.2 ++ [t]) else p) e
          = (e.1, if e.2.contains t then e.2 else e.2 ++ [t]) := by
        simp [hcond]
      rw [← hfe]
      exact List.mem_map_of_mem _ he
    · by_cases hc2 : e.2.contains t
      · simp only [if_pos hc2]
        exact List.elem_iff.mp hc2
      · simp only [if_neg hc2]
        exact List.mem_append_right _ (by simp)
  · exact ⟨(name, [t]), List.mem_append_right _ (by simp), rfl, by simp⟩

theorem insertTaxId_mem_mono {m : List (String × List Nat)} {name0 : String} {v : Nat}
    (name : String) (t : Nat)
    (h : ∃ e ∈ m, e.1 = name0 ∧ v ∈ e.2) :
    ∃ e ∈ insertTaxId m name t, e.1 = name0 ∧ v ∈ e.2 := by
  obtain ⟨e, he, h1, h2⟩ := h
  unfold insertTaxId
  split
  · refine ⟨(fun p => if p.1 = name
        then (p.1, if p.2.contains t then p.2 else p.2 ++ [t]) else p) e,
      List.mem_map_of_mem _ he, ?_⟩
    by_cases hc : e.1 = name
    · simp only [if_pos hc]
      refine ⟨h1, ?_⟩
      by_cases hc2 : e.2.contains t
      · simp only [if_pos hc2]
        exact h2
      · simp only [if_neg hc2]
        exact List.mem_append_left _ h2
    · simp only [if_neg hc]
      exact ⟨h1, h2⟩
  · exact ⟨e, List.mem_append_left _ he, h1, h2⟩

/-- A successful loader step either keeps the map (header line) or
performs one insertion. -/
theorem loadStep_some_shape {m m2 : List (String × List Nat)} {r : ClassRecord}
    (hstep : loadStep m r = some m2) :
    m2 = m ∨ ∃ t, m2 = insertTaxId m r.readName t := by
  unfold loadStep at hstep
  by_cases h1 : r.readName = "readID"
  · rw [if_pos h1] at hstep
    exact Or.inl (Option.some_inj.mp hstep).symm
  · rw [if_neg h1] at hstep
    by_cases h2 : r.seqId = "no rank"
    · rw [if_pos h2] at hstep
      have hstep2 : (if (1 : Nat) = 0 then
          (if r.seqId = "unclassified" then some (insertTaxId m r.readName 1) else none)
          else some (insertTaxId m r.readName 1)) = some m2 := hstep
      rw [if_neg (by simp)] at hstep2
      exact Or.inr ⟨1, (Option.some_inj.mp hstep2).symm⟩
    · rw [if_neg h2] at hstep
      have hstep2 : (if r.taxId = 0 then
          (if r.seqId = "unclassified" then some (insertTaxId m r.readName r.taxId) else none)
          else some (insertTaxId m r.readName r.taxId)) = some m2 := hstep
      by_cases h3 : r.taxId = 0
      · rw [if_pos h3] at hstep2
        by_cases h4 : r.seqId = "unclassified"
        · rw [if_pos h4] at hstep2
          exact Or.inr ⟨r.taxId, (Option.some_inj.mp hstep2).symm⟩
        · rw [if_neg h4] at hstep2
          exact absurd hstep2 (by simp)
      · rw [if_neg h3] at hstep2
        exact Or.inr ⟨r.taxId, (Option.some_inj.mp hstep2).symm⟩

theorem loadStep_mem_mono {m m2 : List (String × List Nat)} {r : ClassRecord}
    {name0 : String} {v : Nat}
    (hstep : loadStep m r = some m2)
    (h : ∃ e ∈ m, e.1 = name0 ∧ v ∈ e.2) :
    ∃ e ∈ m2, e.1 = name0 ∧ v ∈ e.2 := by
  rcases loadStep_some_shape hstep with rfl | ⟨t, rfl⟩
  · exact h
  · exact insertTaxId_mem_mono _ _ h

theorem loadFold_mem_mono :
    ∀ {records : List ClassRecord} {m m2 : List (String × List Nat)}
      {name0 : String} {v : Nat},
      foldOpt loadStep m records = some m2 →
      (∃ e ∈ m, e.1 = name0 ∧ v ∈ e.2) → ∃ e ∈ m2, e.1 = name0 ∧ v ∈ e.2 := by
  intro records
  induction records with
  | nil =>
    intro m m2 name0 v h hmem
    have : m2 = m := Option.some_inj.mp ((foldOpt_nil _ _ ▸ h).symm)
    subst this
    exact hmem
  | cons r0 rest ih =>
    intro m m2 name0 v h hmem
    obtain ⟨m1, hstep, hrest⟩ := foldOpt_cons_some h
    exact ih hrest (loadStep_mem_mono hstep hmem)

theorem loadStep_norank {m m2 : List (String × List Nat)} {r : ClassRecord}
    (hstep : loadStep m r = some m2) (hhdr : r.readName ≠ "readID")
    (hnr : r.seqId = "no rank") :
    ∃ e ∈ m2, e.1 = r.readName ∧ 1 ∈ e.2 := by
  unfold loadStep at hstep
  rw [if_neg hhdr, if_pos hnr] at hstep
  have hstep2 : (if (1 : Nat) = 0 then
      (if r.seqId = "unclassified" then some (insertTaxId m r.readName 1) else none)
      else some (insertTaxId m r.readName 1)) = some m2 := hstep
  rw [if_neg (by simp)] at hstep2
  have hm : m2 = insertTaxId m r.readName 1 := (Option.some_inj.mp hstep2).symm
  subst hm
  exact insertTaxId_inserted m r.readName 1

theorem loadFold_norank :
    ∀ {records : List ClassRecord} {m m2 : List (String × List Nat)},
      foldOpt loadStep m records = some m2 →
      ∀ r ∈ records, r.readName ≠ "readID" → r.seqId = "no rank" →
        ∃ e ∈ m2, e.1 = r.readName ∧ 1 ∈ e.2 := by
  intro records
  induction records with
  | nil => intro m m2 _ r hr; simp at hr
  | cons r0 rest ih =>
    intro m m2 h r hr hhdr hnr
    obtain ⟨m1, hstep, hrest⟩ := foldOpt_cons_some h
    rcases List.mem_cons.mp hr with rfl | hr2
    · exact loadFold_mem_mono hrest (loadStep_norank hstep hhdr hnr)
    · exact ih hrest r hr2 hhdr hnr

/-- C7: loading the classification stream fails exactly when some
non-header line carries tax ID 0 with a seq ID other than
`"unclassified"`; the `"no rank"` sentinel is applied before the check,
so a `"no rank"` line is recorded as tax ID 1 regardless of its numeric
field and never trips the 0-check. -/
theorem count_C7 (records : List ClassRecord) :
    (loadTaxIdsPerRead records = none ↔
      ∃ r ∈ records, r.readName ≠ "readID" ∧ r.seqId ≠ "no rank" ∧ r.taxId = 0 ∧
        r.seqId ≠ "unclassified") ∧
    ∀ m, loadTaxIdsPerRead records = some m →
      ∀ r ∈ records, r.readName ≠ "readID" → r.seqId = "no rank" →
        ∃ e ∈ m, e.1 = r.readName ∧ 1 ∈ e.2 :=
  ⟨loadFold_none_iff records [], fun _ hm => loadFold_norank hm⟩

theorem count_C7_witness :
    loadTaxIdsPerRead [⟨"r1", "genus", 0⟩] = none ∧
    ∃ e ∈ [("r2", [1])], e.1 = "r2" ∧ 1 ∈ e.2 := by
  constructor
  · exact (count_C7 [⟨"r1", "genus", 0⟩]).1.mpr
      ⟨⟨"r1", "genus", 0⟩, by decide, by decide, by decide, rfl, by decide⟩
  · exact (count_C7 [⟨"r2", "no rank", 7⟩]).2 [("r2", [1])] (by decide)
      ⟨"r2", "no rank", 7⟩ (by decide) (by decide) rfl

/-! ### Claim C10 -/

theorem insertTaxId_nonempty {m : List (String × List Nat)} {name : String} {t : Nat}
    (h : ∀ e ∈ m, e.2 ≠ []) : ∀ e ∈ insertTaxId m name t, e.2 ≠ [] := by
  intro e he
  unfold insertTaxId at he
  split at he
  · obtain ⟨e0, he0, heq⟩ := List.mem_map.mp he
    by_cases hc : e0.1 = name
    · rw [if_pos hc] at heq
      subst heq
      by_cases hc2 : e0.2.contains t
      · simp only [if_pos hc2]
        exact h e0 he0
      · simp only [if_neg hc2]
        simp
    · rw [if_neg hc] at heq
      subst heq
      exact h e0 he0
  · rcases List.mem_append.mp he with he2 | he2
    · exact h e he2
    · have he3 : e = (name, [t]) := by simpa using he2
      subst he3
      simp

theorem loadStep_nonempty {m m2 : List (String × List Nat)} {r : ClassRecord}
    (hstep : loadStep m r = some m2) (h : ∀ e ∈ m, e.2 ≠ []) : ∀ e ∈ m2, e.2 ≠ [] := by
  rcases loadStep_some_shape hstep with rfl | ⟨t, rfl⟩
  · exact h
  · exact insertTaxId_nonempty h

theorem loadFold_nonempty :
    ∀ {records : List ClassRecord} {m m2 : List (String × List Nat)},
      foldOpt loadStep m records = some m2 → (∀ e ∈ m, e.2 ≠ []) →
      ∀ e ∈ m2, e.2 ≠ [] := by
  intro records
  induction records with
  | nil =>
    intro m m2 h hne
    have : m2 = m := Option.some_inj.mp ((foldOpt_nil _ _ ▸ h).symm)
    subst this
    exact hne
  | cons r0 rest ih =>
    intro m m2 h hne
    obtain ⟨m1, hstep, hrest⟩ := foldOpt_cons_some h
    exact ih hrest (loadStep_nonempty hstep hne)

/-- C10: every candidate set produced by `load_tax_ids_per_read` is
non-empty, so the empty branch of `add_rank_count` (its bare `return`,
whose `None` would make `main`'s `tax_id > 0` comparison a `TypeError`)
is unreachable for reads coming from that mapping: on a non-empty
candidate list a successful classification is never the `empty`
outcome, i.e. it always carries an integer tax ID. -/
theorem count_C10 (records : List ClassRecord) (m : List (String × List Nat))
    (H : loadTaxIdsPerRead records = some m) :
    (∀ e ∈ m, e.2 ≠ []) ∧
    ∀ (taxIds : List Nat) (rankMap stdMap : Nat → Option String)
      (parent : Nat → Option Nat) (fuel : Nat) (out : ClassifyOutcome),
      taxIds ≠ [] → addRankCount taxIds rankMap stdMap parent fuel = some out →
      out ≠ ClassifyOutcome.empty := by
  constructor
  · exact loadFold_nonempty H (by intro e he; simp at he)
  · intro taxIds rankMap stdMap parent fuel out hne hout
    obtain ⟨t, r, s, hrw, _⟩ := addRankCount_some hne hout
    intro he
    rw [he] at hrw
    exact ClassifyOutcome.noConfusion hrw

theorem count_C10_witness :
    loadTaxIdsPerRead [⟨"r1", "genus", 5⟩] = some [("r1", [5])] ∧
    (("r1", [5]) : String × List Nat).2 ≠ [] := by
  have h := count_C10 [⟨"r1", "genus", 5⟩] [("r1", [5])] (by decide)
  exact ⟨by decide, h.1 ("r1", [5]) (by decide)⟩

/-! ### The main aggregation loop -/

theorem cumulAddFuel_root {parent : Nat → Option Nat} {fuel t : Nat} {cum cum2 : Nat → Nat}
    (h : cumulAddFuel parent fuel cum t = some cum2) : cum2 1 = cum 1 + 1 := by
  induction fuel generalizing cum t with
  | zero =>
    simp only [cumulAddFuel] at h
    split at h
    · rename_i ht
      subst ht
      rw [← Option.some_inj.mp h]
      simp [bumpN]
    · exact absurd h (by simp)
  | succ f ih =>
    simp only [cumulAddFuel] at h
    split at h
    · rename_i ht
      subst ht
      rw [← Option.some_inj.mp h]
      simp [bumpN]
    · rename_i ht
      rcases hp : parent t with _ | p
      · rw [hp] at h
        exact absurd h (by simp)
      · rw [hp] at h
        have hrec := ih h
        have h1t : (1 : Nat) ≠ t := fun he => ht he.symm
        rw [hrec]
        simp [bumpN, h1t]

/-- The cumulative-count component of `main`'s loop: the root's count
grows by exactly the number of positively classified reads. -/
theorem processReads_root_aux {rankMap stdMap : Nat → Option String}
    {parent : Nat → Option Nat} {fuel : Nat} :
    ∀ {reads : List (String × List Nat)} {st0 : (String → Nat) × (Nat → Nat)}
      {cpr : String → Nat} {cum : Nat → Nat},
      foldOpt (processRead rankMap stdMap parent fuel) st0 reads = some (cpr, cum) →
      cum 1 = st0.2 1 +
        reads.countP (fun r => classifiedPositive r.2 rankMap stdMap parent fuel) := by
  intro reads
  induction reads with
  | nil =>
    intro st0 cpr cum h
    have hres : st0 = (cpr, cum) := Option.some_inj.mp ((foldOpt_nil _ _ ▸ h))
    rw [hres]
    simp
  | cons rd rest ih =>
    intro st0 cpr cum h
    obtain ⟨st1, hstep, hrest⟩ := foldOpt_cons_some h
    unfold processRead at hstep
    rcases harc : addRankCount rd.2 rankMap stdMap parent fuel with _ | out
    · rw [harc] at hstep
      exact absurd hstep (by simp)
    · rw [harc] at hstep
      rcases out with _ | ⟨t, r, s⟩
      · exact absurd hstep (by simp)
      · have hstep2 : (if 0 < t then
            match cumulAddFuel parent fuel st0.2 t with
            | none => none
            | some cum2 => some (bumpS st0.1 s, cum2)
          else some (bumpS st0.1 s, st0.2)) = some st1 := hstep
        by_cases hpos : 0 < t
        · rw [if_pos hpos] at hstep2
          rcases hcum : cumulAddFuel parent fuel st0.2 t with _ | cum2
          · rw [hcum] at hstep2
            exact absurd hstep2 (by simp)
          · rw [hcum] at hstep2
            have hst1 : st1 = (bumpS st0.1 s, cum2) := (Option.some_inj.mp hstep2).symm
            subst hst1
            have hrec0 := ih hrest
            have hrec : cum 1 = cum2 1 +
                rest.countP (fun r => classifiedPositive r.2 rankMap stdMap parent fuel) :=
              hrec0
            have hc2 := cumulAddFuel_root hcum
            have hposB : classifiedPositive rd.2 rankMap stdMap parent fuel = true := by
              unfold classifiedPositive
              rw [harc]
              simpa using hpos
            have hcount : (rd :: rest).countP
                  (fun r => classifiedPositive r.2 rankMap stdMap parent fuel)
                = rest.countP (fun r => classifiedPositive r.2 rankMap stdMap parent fuel)
                  + 1 := by
              rw [List.countP_cons]
              simp [hposB]
            rw [hcount, hrec, hc2]
            omega
        · rw [if_neg hpos] at hstep2
          have hst1 : st1 = (bumpS st0.1 s, st0.2) := (Option.some_inj.mp hstep2).symm
          subst hst1
          have hrec0 := ih hrest
          have hrec : cum 1 = st0.2 1 +
              rest.countP (fun r => classifiedPositive r.2 rankMap stdMap parent fuel) :=
            hrec0
          have hnegB : classifiedPositive rd.2 rankMap stdMap parent fuel = false := by
            unfold classifiedPositive
            rw [harc]
            simpa using hpos
          have hcount : (rd :: rest).countP
                (fun r => classifiedPositive r.2 rankMap stdMap parent fuel)
              = rest.countP (fun r => classifiedPositive r.2 rankMap stdMap parent fuel) := by
            rw [List.countP_cons]
            simp [hnegB]
          rw [hcount, hrec]

/-- C5: over a whole run, the cumulative table's entry at the root
equals the number of reads whose resolved tax ID is positive, and a
read resolved to tax ID 0 leaves the cumulative table untouched (it
bumps only the per-rank counter). -/
theorem count_C5 (reads : List (String × List Nat)) (rankMap stdMap : Nat → Option String)
    (parent : Nat → Option Nat) (fuel : Nat) (cpr : String → Nat) (cum : Nat → Nat)
    (H : processReads reads rankMap stdMap parent fuel = some (cpr, cum)) :
    cum 1 = reads.countP (fun r => classifiedPositive r.2 rankMap stdMap parent fuel) ∧
    ∀ (c0 : String → Nat) (k0 : Nat → Nat) (nm : String) (tids : List Nat) (r s : String),
      addRankCount tids rankMap stdMap parent fuel =
        some (ClassifyOutcome.classified 0 r s) →
      processRead rankMap stdMap parent fuel (c0, k0) (nm, tids) = some (bumpS c0 s, k0) := by
  constructor
  · have h := processReads_root_aux H
    simpa using h
  · intro c0 k0 nm tids r s harc
    have hgoal : (match addRankCount tids rankMap stdMap parent fuel with
        | none => none
        | some ClassifyOutcome.empty => none
        | some (ClassifyOutcome.classified t _ s2) =>
          if 0 < t then
            match cumulAddFuel parent fuel k0 t with
            | none => none
            | some cum2 => some (bumpS c0 s2, cum2)
          else some (bumpS c0 s2, k0)) = some (bumpS c0 s, k0) := by
      rw [harc]
      rfl
    exact hgoal

theorem count_C5_witness :
    ∃ cpr cum, processReads exampleReads exampleRankF exampleStdF exampleParentF 9 =
        some (cpr, cum) ∧
      cum 1 = exampleReads.countP
        (fun r => classifiedPositive r.2 exampleRankF exampleStdF exampleParentF 9) := by
  have hsome : (processReads exampleReads exampleRankF exampleStdF exampleParentF 9).isSome
      = true := by decide
  obtain ⟨⟨cpr, cum⟩, hps⟩ := Option.isSome_iff_exists.mp hsome
  exact ⟨cpr, cum, hps,
    (count_C5 exampleReads exampleRankF exampleStdF exampleParentF 9 cpr cum hps).1⟩

/-! ### Claim C6 -/

theorem map_bumpS_sum {L : List String} {f : String → Nat} {s : String}
    (hmem : s ∈ L) (hnd : L.Nodup) :
    (L.map (bumpS f s)).sum = (L.map f).sum + 1 := by
  induction L with
  | nil => simp at hmem
  | cons x L ih =>
    rw [List.map_cons, List.map_cons, List.sum_cons, List.sum_cons]
    rw [List.nodup_cons] at hnd
    rcases List.mem_cons.mp hmem with rfl | hmem2
    · have hself : bumpS f s s = f s + 1 := by simp [bumpS]
      have hrest : L.map (bumpS f s) = L.map f := by
        apply List.map_congr_left
        intro a ha
        have hne : a ≠ s := fun he => hnd.1 (by rw [← he]; exact ha)
        simp [bumpS, hne]
      rw [hself, hrest]
      omega
    · have hx : x ≠ s := fun he => hnd.1 (by rw [he]; exact hmem2)
      have hbx : bumpS f s x = f x := by simp [bumpS, hx]
      rw [hbx, ih hmem2 hnd.2]
      omega

theorem bumpS_outside {f : String → Nat} {s s2 : String} (h : s2 ≠ s) :
    bumpS f s s2 = f s2 := by
  simp [bumpS, h]

/-- The per-rank component of `main`'s loop: each read bumps the table
exactly once, at a label inside the 9-rank set. -/
theorem processReads_sum_aux {rankMap stdMap : Nat → Option String}
    {parent : Nat → Option Nat} {fuel : Nat}
    (hstd : ∀ k s, stdMap k = some s → s ∈ nineRanks) :
    ∀ {reads : List (String × List Nat)} {st0 : (String → Nat) × (Nat → Nat)}
      {cpr : String → Nat} {cum : Nat → Nat},
      foldOpt (processRead rankMap stdMap parent fuel) st0 reads = some (cpr, cum) →
      (nineRanks.map cpr).sum = (nineRanks.map st0.1).sum + reads.length ∧
      ∀ s2, s2 ∉ nineRanks → cpr s2 = st0.1 s2 := by
  intro reads
  induction reads with
  | nil =>
    intro st0 cpr cum h
    have hres : st0 = (cpr, cum) := Option.some_inj.mp (foldOpt_nil _ _ ▸ h)
    rw [hres]
    simp
  | cons rd rest ih =>
    intro st0 cpr cum h
    obtain ⟨st1, hstep, hrest⟩ := foldOpt_cons_some h
    unfold processRead at hstep
    rcases harc : addRankCount rd.2 rankMap stdMap parent fuel with _ | out
    · rw [harc] at hstep
      exact absurd hstep (by simp)
    · rw [harc] at hstep
      rcases out with _ | ⟨t, r, s⟩
      · exact absurd hstep (by simp)
      · have hsnine : s ∈ nineRanks :=
          hstd t s (addRankCount_classified_maps harc).2
        have hstep2 : (if 0 < t then
            match cumulAddFuel parent fuel st0.2 t with
            | none => none
            | some cum2 => some (bumpS st0.1 s, cum2)
          else some (bumpS st0.1 s, st0.2)) = some st1 := hstep
        have hkey : st1.1 = bumpS st0.1 s := by
          by_cases hpos : 0 < t
          · rw [if_pos hpos] at hstep2
            rcases hcum : cumulAddFuel parent fuel st0.2 t with _ | cum2
            · rw [hcum] at hstep2
              exact absurd hstep2 (by simp)
            · rw [hcum] at hstep2
              rw [← (Option.some_inj.mp hstep2)]
          · rw [if_neg hpos] at hstep2
            rw [← (Option.some_inj.mp hstep2)]
        obtain ⟨ihsum, ihout⟩ := ih hrest
        constructor
        · rw [ihsum, hkey, map_bumpS_sum hsnine (by decide), List.length_cons]
          omega
        · intro s2 hs2
          have hne : s2 ≠ s := fun he => hs2 (he ▸ hsnine)
          rw [ihout s2 hs2, hkey, bumpS_outside hne]

/-- C6: with a standard-rank map whose values all lie in the 9-label
set (as `load_tax_info` guarantees), a completed run's per-rank table
sums to the number of processed reads over the nine labels and is zero
elsewhere, so `write_summary`'s `assert read_count == total_count`
comparison holds. -/
theorem count_C6 (reads : List (String × List Nat)) (rankMap stdMap : Nat → Option String)
    (parent : Nat → Option Nat) (fuel : Nat) (cpr : String → Nat) (cum : Nat → Nat)
    (hstd : ∀ k s, stdMap k = some s → s ∈ nineRanks)
    (H : processReads reads rankMap stdMap parent fuel = some (cpr, cum)) :
    (nineRanks.map cpr).sum = reads.length ∧
    (∀ s, s ∉ nineRanks → cpr s = 0) ∧
    summaryTotalCount cpr = reads.length := by
  obtain ⟨hsum, hout⟩ := processReads_sum_aux hstd H
  have hsum0 : (nineRanks.map cpr).sum = reads.length := by
    rw [hsum]
    simp [nineRanks]
  exact ⟨hsum0, fun s hs => hout s hs, hsum0⟩

theorem count_C6_witness :
    (∀ k s, exampleStdF k = some s → s ∈ nineRanks) ∧
    ∃ cpr cum, processReads exampleReads exampleRankF exampleStdF exampleParentF 9 =
        some (cpr, cum) ∧
      (nineRanks.map cpr).sum = exampleReads.length ∧
      summaryTotalCount cpr = exampleReads.length := by
  have hstd : ∀ k s, exampleStdF k = some s → s ∈ nineRanks := by
    intro k s h
    simp only [exampleStdF] at h
    split at h
    · simp [← Option.some_inj.mp h, nineRanks]
    · split at h
      · simp [← Option.some_inj.mp h, nineRanks]
      · split at h
        · simp [← Option.some_inj.mp h, nineRanks]
        · split at h
          · simp [← Option.some_inj.mp h, nineRanks]
          · split at h
            · simp [← Option.some_inj.mp h, nineRanks]
            · exact absurd h (by simp)
  have hsome : (processReads exampleReads exampleRankF exampleStdF exampleParentF 9).isSome
      = true := by decide
  obtain ⟨⟨cpr, cum⟩, hps⟩ := Option.isSome_iff_exists.mp hsome
  have h := count_C6 exampleReads exampleRankF exampleStdF exampleParentF 9 cpr cum hstd hps
  exact ⟨hstd, cpr, cum, hps, h.1, h.2.2⟩

end CountClassifications
